import Mathlib

/-!
Verification of the overload resolution and dispatch core of the Robin
cross-language binding runtime, as implemented in
`src/robin/reflection/overloadedset.cc` (release 1.0.2).

The development shallowly embeds the data model (`Weight`, `Insight`,
`ConversionRoute`, `CFunction`, the resolution cache) and the operations
(`compareAlternatives`, `identicalAlternatives`, `rememberWeights`,
`conversionPossible`, `convertSequence`, the tournament loop of
`OverloadedSet::call`) as executable Lean functions, and proves the
behavioural properties claimed by the specification.

External collaborators that are not part of the repository's reflection
core (the scripting frontend, the conversion table, the garbage
collection sink's destructor, `Insight`'s ordering) are modelled from the
specification's contracts and kept abstract wherever the claims permit.
-/

namespace Robin

/-- Identity token for a native argument type (`Handle<TypeOfArgument>`);
the C++ compares these by address, so a plain handle number suffices. -/
abbrev TypeDescriptor := Nat

/-- Modelled from the spec: `Insight` (insight.h is not part of the
reflection sources given). A totally ordered, equality-comparable
per-value refinement tag fed to `ConversionRoute::totalWeight`. -/
abbrev Insight := Nat

/-- A scripting-host value (`scripting_element`). -/
abbrev Value := Nat

/-- Modelled from the spec: `Conversion::Weight` (conversion.h is not part
of the reflection sources given). An ordered conversion cost with a
distinguished `INFINITE` maximum meaning "conversion impossible";
`isPossible w ↔ w < INFINITE`. The claims depend only on the strict
total order and on `INFINITE` being its maximum, so finite weights are
collapsed to a single natural. -/
inductive Weight where
  | fin : Nat → Weight
  | INFINITE : Weight
deriving DecidableEq, Repr

/-- Strict comparison of weights: finite weights by their cost,
`INFINITE` strictly above every finite weight. -/
def Weight.lt : Weight → Weight → Bool
  | .fin a, .fin b => decide (a < b)
  | .fin _, .INFINITE => true
  | .INFINITE, _ => false

/-- `Weight::isPossible()`: a weight is possible iff it is not `INFINITE`. -/
def Weight.isPossible : Weight → Bool
  | .fin _ => true
  | .INFINITE => false

/-- Modelled from the spec: a `ConversionRoute` is used by the overload
resolver only through `totalWeight(insight)` and `apply(value, gc)`;
`apply` returns the converted value together with the transient values
it materialises into the garbage-collection sink. -/
structure ConversionRoute where
  totalWeight : Insight → Weight
  apply : Value → Value × List Value

/-- A candidate native function (`CFunction`): formal signature, return
type, and the opaque native invoker.  The invoker may raise a native
exception, modelled as `Except.error`. -/
structure CFunction where
  signature : List TypeDescriptor
  returnType : TypeDescriptor
  nativeCall : List Value → Except Unit Value

/-- The four-valued outcome of weight-vector comparison
(`enum overloading_relationship`, overloadedset.cc lines 30-35). -/
inductive overloading_relationship where
  | OL_BETTER
  | OL_WORSE
  | OL_EQUIVALENT
  | OL_AMBIGUOUS
deriving DecidableEq, Repr

/-- Scan of the parallel witness-collecting loop inside
`compareAlternatives` (overloadedset.cc lines 235-248): walks the weight
vector of the known champion and the suggested candidate's routes in
parallel, accumulating `worse_witness` (first component: some position
where known is strictly less than suggested) and `better_witness`
(second component: some position where suggested is strictly less than
known). -/
def scanWitnesses : List Weight → List ConversionRoute → List Insight → Bool × Bool
  | k :: ks, s :: ss, i :: is =>
    let rest := scanWitnesses ks ss is
    let suggested_weight := s.totalWeight i
    (Weight.lt k suggested_weight || rest.1, Weight.lt suggested_weight k || rest.2)
  | _, _, _ => (false, false)

/-- `compareAlternatives` (vector version, overloadedset.cc lines
216-254): zero-length known vector returns `OL_BETTER` outright; else
the two witnesses decide between the four lattice values. -/
def compareAlternatives (known : List Weight) (suggested : List ConversionRoute)
    (insights : List Insight) : overloading_relationship :=
  if known.length = 0 then .OL_BETTER
  else
    let w := scanWitnesses known suggested insights
    if w.1 != w.2 then (if w.2 then .OL_BETTER else .OL_WORSE)
    else (if w.2 then .OL_AMBIGUOUS else .OL_EQUIVALENT)

/-- `identicalAlternatives` (overloadedset.cc lines 309-325): two
alternatives are identical iff their signatures have equal length and
are element-wise identical. -/
def identicalAlternatives (alt1 alt2 : CFunction) : Bool :=
  if alt1.signature.length ≠ alt2.signature.length then false
  else (alt1.signature.zip alt2.signature).all fun p => p.1 == p.2

/-- `rememberWeights` (vector version, overloadedset.cc lines 331-339):
extracts the per-position total weights of a route list under the given
insights.  At every call site the two lists have equal length. -/
def rememberWeights (list : List ConversionRoute) (insights : List Insight) : List Weight :=
  (list.zip insights).map fun p => p.1.totalWeight p.2

/-- `conversionPossible` (vector version, overloadedset.cc lines
358-368): every weight in the vector must be possible. -/
def conversionPossible (weights : List Weight) : Bool :=
  weights.all Weight.isPossible

/-- `convertSequence` (vector version, overloadedset.cc lines 390-401):
applies each conversion route to the corresponding actual argument;
returns the converted arguments together with the transient values
accumulated into the garbage-collection sink. -/
def convertSequence : List Value → List ConversionRoute → List Value × List Value
  | o :: os, c :: cs =>
    let this := c.apply o
    let rest := convertSequence os cs
    (this.1 :: rest.1, this.2 ++ rest.2)
  | _, _ => ([], [])

/-- Modelled from the spec: the scripting-host frontend
(`FrontendsFramework::activeFrontend()`), through its two pure
detection functions used by `OverloadedSet::call`. -/
structure Frontend where
  detectType : Value → TypeDescriptor
  detectInsight : Value → Insight

/-- Modelled from the spec: the conversion-table collaborator.
`bestSequenceRoute` returns the per-position cheapest routes, or `none`
when some position admits no route (`NoApplicableConversionException`);
`getEdgeConversion` is the optional return-path conversion. -/
structure ConversionTable where
  bestSequenceRoute : List TypeDescriptor → List Insight → List TypeDescriptor →
    Option (List ConversionRoute)
  getEdgeConversion : TypeDescriptor → Option (Value → Value)

/-- `applyEdgeConversions` (overloadedset.cc lines 426-437): when an edge
conversion is registered on the return type, the result value is
replaced by its image (the replaced original goes back to the memory
manager, which is outside the garbage-collection sink). -/
def applyEdgeConversions (table : ConversionTable) (type : TypeDescriptor)
    (value : Value) : Value :=
  match table.getEdgeConversion type with
  | some exit => exit value
  | none => value

/-- Key of the resolution cache (`OverloadedSet::Cache::Key`,
overloadedset.cc lines 64-69): set identity, the detected actual type
handles and the detected insights.  `KeyIdentityFunctor` compares the
group, the argument count, and both arrays element-wise, which is
exactly equality of this structure. -/
structure CacheKey where
  group : Nat
  args : List TypeDescriptor
  insights : List Insight
deriving DecidableEq, Repr

/-- The process-wide resolution cache, a memo from keys to chosen
candidate indices.  Newest entries are consulted first. -/
abbrev Cache := List (CacheKey × Nat)

/-- `Cache::recall` (overloadedset.cc lines 140-146): fetch the entry
for a key; `none` models the `MISSED` sentinel. -/
def Cache.recall : Cache → CacheKey → Option Nat
  | [], _ => none
  | e :: rest, k => if e.1 = k then some e.2 else Cache.recall rest k

/-- `Cache::remember` (overloadedset.cc lines 125-135): store an entry
under a private copy of the key. -/
def Cache.remember (c : Cache) (k : CacheKey) (chosenAlternative : Nat) : Cache :=
  (k, chosenAlternative) :: c

/-- The `MISSED` sentinel value `(unsigned int)-9`
(overloadedset.cc line 189); in `call` it is the value of `cached_alt`
before any alternative has been adopted. -/
def Cache.MISSED : Nat := 4294967287

/-- An ordered collection of candidate functions sharing a name
(`OverloadedSet`); `id` stands for the set's address, used as the
cache-key group component. -/
structure OverloadedSet where
  id : Nat
  m_alternatives : List CFunction

/-- `OverloadedSet::addAlternative` (overloadedset.cc lines 465-468):
appends a candidate. -/
def OverloadedSet.addAlternative (S : OverloadedSet) (alt : CFunction) : OverloadedSet :=
  { S with m_alternatives := S.m_alternatives ++ [alt] }

/-- `OverloadedSet::ARGUMENT_ARRAY_LIMIT` (overloadedset.cc line 53). -/
def ARGUMENT_ARRAY_LIMIT : Nat := 12

/-- The null champion handle inside `identicalAlternatives`'s first
argument: in the C++, `lightest` is a `Handle<CFunction>` that is null
until a `OL_BETTER` verdict adopts a champion, and dereferencing it
while null is undefined behaviour.  The `false` result below is an
arbitrary stand-in for that undefined dereference; `TournState.nullDeref`
records whenever it is consulted. -/
def identicalAlternativesOpt : Option CFunction → CFunction → Bool
  | none, _ => false
  | some a, b => identicalAlternatives a b

/-- State of the tournament loop in the cache-miss branch of
`OverloadedSet::call` (overloadedset.cc lines 551-596): the ambiguity
flag, the champion handle (`lightest`), the champion's index
(`cached_alt`), the champion's recorded routes and weight vector.
`nullDeref` flags a dereference of the null champion handle (undefined
behaviour in the source); `routeComputations` counts the
`bestSequenceRoute` invocations (instrumentation for the cache claims). -/
structure TournState where
  ambiguity_alert : Bool
  lightest : Option CFunction
  cached_alt : Nat
  lightroutes : List ConversionRoute
  lightweight : List Weight
  nullDeref : Bool
  routeComputations : Nat

/-- A default-constructed (null) route handle: `ConversionRoutes
lightroutes(msize)` fills the vector with null handles, which are never
consulted before a champion overwrites them. -/
def nullRoute : ConversionRoute :=
  { totalWeight := fun _ => Weight.INFINITE, apply := fun v => (v, []) }

/-- Initial tournament state (overloadedset.cc lines 551-554):
no champion, champion weights all `INFINITE`. -/
def initState (nargs : Nat) : TournState :=
  { ambiguity_alert := false
    lightest := none
    cached_alt := Cache.MISSED
    lightroutes := List.replicate nargs nullRoute
    lightweight := List.replicate nargs Weight.INFINITE
    nullDeref := false
    routeComputations := 0 }

/-- Body of the tournament loop (overloadedset.cc lines 556-596) for one
candidate `(index, alternative)`: skip on arity mismatch; disqualify
silently on `NoApplicableConversion`; on `OL_BETTER` adopt the candidate
as champion, record its routes, recompute the champion weights from the
candidate's own routes, and clear the ambiguity flag; on
`OL_EQUIVALENT`/`OL_AMBIGUOUS` raise the ambiguity flag unless the
candidate is identical to the champion; ignore `OL_WORSE`. -/
def tournStep (table : ConversionTable) (actual_types : List TypeDescriptor)
    (actual_insights : List Insight) (nargs : Nat) (st : TournState)
    (ialt : Nat × CFunction) : TournState :=
  if ialt.2.signature.length = nargs then
    match table.bestSequenceRoute actual_types actual_insights ialt.2.signature with
    | none => { st with routeComputations := st.routeComputations + 1 }
    | some needed =>
      match compareAlternatives st.lightweight needed actual_insights with
      | .OL_BETTER =>
        { ambiguity_alert := false
          lightest := some ialt.2
          cached_alt := ialt.1
          lightroutes := needed
          lightweight := rememberWeights needed actual_insights
          nullDeref := st.nullDeref
          routeComputations := st.routeComputations + 1 }
      | .OL_EQUIVALENT | .OL_AMBIGUOUS =>
        let nd := st.nullDeref || st.lightest.isNone
        if identicalAlternativesOpt st.lightest ialt.2 then
          { st with nullDeref := nd, routeComputations := st.routeComputations + 1 }
        else
          { st with ambiguity_alert := true, nullDeref := nd,
                    routeComputations := st.routeComputations + 1 }
      | .OL_WORSE => { st with routeComputations := st.routeComputations + 1 }
  else st

/-- The tournament loop itself: iterate the candidates in registration
order, carrying the index (`alt_iter - m_alternatives.begin()`). -/
def tournLoop (table : ConversionTable) (actual_types : List TypeDescriptor)
    (actual_insights : List Insight) (nargs : Nat) :
    List CFunction → Nat → TournState → TournState
  | [], _, st => st
  | alt :: rest, idx, st =>
    tournLoop table actual_types actual_insights nargs rest (idx + 1)
      (tournStep table actual_types actual_insights nargs st (idx, alt))

/-- Errors surfacing from `OverloadedSet::call`.
`NoApplicableConversion` can escape only on the cache-hit path (the
try/catch is inside the tournament); `NativeException` stands for an
exception raised by the native callable; `undefinedBehaviour` marks a
cache hit whose stored index does not address a registered alternative
(an out-of-range `m_alternatives[cached_alt]` in the C++). -/
inductive CallError where
  | ArgumentArrayLimitExceeded
  | OverloadingNoMatch
  | OverloadingAmbiguity
  | NoApplicableConversion
  | NativeException
  | undefinedBehaviour
deriving DecidableEq, Repr

/-- Observable result of one `OverloadedSet::call`: the outcome, the
cache afterwards, and instrumentation: how many actuals were
fingerprinted by the frontend, the transient values accumulated in the
garbage-collection sink and the values the sink released on exit,
whether the cache probe hit, whether the tournament ran, the chosen
candidate index, the number of `bestSequenceRoute` invocations, and
whether a null champion handle was dereferenced. -/
structure CallResult where
  outcome : Except CallError Value
  cacheAfter : Cache
  frontendDetections : Nat
  gcAccumulated : List Value
  gcReleased : List Value
  cacheHit : Bool
  tournamentRan : Bool
  chosen : Option Nat
  routeComputations : Nat
  nullDeref : Bool
deriving Repr

/-- Shared epilogue of `OverloadedSet::call` (overloadedset.cc lines
620-626): invoke the native function on the converted arguments, apply
the edge conversion of the return type, explicitly clean up the
garbage-collection sink, and return.  When the native call raises, the
exception propagates and the sink is released by the
`GarbageCollection` destructor instead (modelled from the spec: the
sink class itself is outside the given reflection sources). -/
def finishCall (table : ConversionTable) (m : CFunction)
    (converted_args transients : List Value) (cacheAfter : Cache) (nargs : Nat)
    (hit tournamentRan : Bool) (chosen : Option Nat) (rc : Nat) (nd : Bool) : CallResult :=
  match m.nativeCall converted_args with
  | .error _ =>
    { outcome := .error .NativeException
      cacheAfter := cacheAfter
      frontendDetections := nargs
      gcAccumulated := transients
      gcReleased := transients
      cacheHit := hit
      tournamentRan := tournamentRan
      chosen := chosen
      routeComputations := rc
      nullDeref := nd }
  | .ok result0 =>
    let result := applyEdgeConversions table m.returnType result0
    { outcome := .ok result
      cacheAfter := cacheAfter
      frontendDetections := nargs
      gcAccumulated := transients
      gcReleased := transients ++ ([] : List Value)
      cacheHit := hit
      tournamentRan := tournamentRan
      chosen := chosen
      routeComputations := rc
      nullDeref := nd }

/-- `OverloadedSet::call` (overloadedset.cc lines 496-630): arity gate,
fingerprinting through the frontend, cache probe, then either the
cached fast path or the full tournament followed by the verdict
(`OverloadingNoMatch` when the champion weights are impossible or no
champion was set, `OverloadingAmbiguity` when the ambiguity flag
survives, otherwise store in the cache, convert and invoke). -/
def OverloadedSet.call (S : OverloadedSet) (frontend : Frontend)
    (table : ConversionTable) (cache : Cache) (args : List Value) : CallResult :=
  let nargs := args.length
  if nargs > ARGUMENT_ARRAY_LIMIT then
    { outcome := .error .ArgumentArrayLimitExceeded
      cacheAfter := cache
      frontendDetections := 0
      gcAccumulated := []
      gcReleased := []
      cacheHit := false
      tournamentRan := false
      chosen := none
      routeComputations := 0
      nullDeref := false }
  else
    let actual_types := args.map frontend.detectType
    let actual_insights := args.map frontend.detectInsight
    let key : CacheKey := ⟨S.id, actual_types, actual_insights⟩
    match Cache.recall cache key with
    | some cached_alt =>
      match S.m_alternatives.get? cached_alt with
      | none =>
        { outcome := .error .undefinedBehaviour
          cacheAfter := cache
          frontendDetections := nargs
          gcAccumulated := []
          gcReleased := []
          cacheHit := true
          tournamentRan := false
          chosen := some cached_alt
          routeComputations := 0
          nullDeref := false }
      | some m =>
        match table.bestSequenceRoute actual_types actual_insights m.signature with
        | none =>
          { outcome := .error .NoApplicableConversion
            cacheAfter := cache
            frontendDetections := nargs
            gcAccumulated := []
            gcReleased := []
            cacheHit := true
            tournamentRan := false
            chosen := some cached_alt
            routeComputations := 1
            nullDeref := false }
        | some needed =>
          let cv := convertSequence args needed
          finishCall table m cv.1 cv.2 cache nargs true false (some cached_alt) 1 false
    | none =>
      let final := tournLoop table actual_types actual_insights nargs
        S.m_alternatives 0 (initState nargs)
      if !conversionPossible final.lightweight || final.lightest.isNone then
        { outcome := .error .OverloadingNoMatch
          cacheAfter := cache
          frontendDetections := nargs
          gcAccumulated := []
          gcReleased := []
          cacheHit := false
          tournamentRan := true
          chosen := none
          routeComputations := final.routeComputations
          nullDeref := final.nullDeref }
      else if final.ambiguity_alert then
        { outcome := .error .OverloadingAmbiguity
          cacheAfter := cache
          frontendDetections := nargs
          gcAccumulated := []
          gcReleased := []
          cacheHit := false
          tournamentRan := true
          chosen := none
          routeComputations := final.routeComputations
          nullDeref := final.nullDeref }
      else
        match final.lightest with
        | some m =>
          let cache2 := Cache.remember cache key final.cached_alt
          let cv := convertSequence args final.lightroutes
          finishCall table m cv.1 cv.2 cache2 nargs false true (some final.cached_alt)
            final.routeComputations final.nullDeref
        | none =>
          { outcome := .error .OverloadingNoMatch
            cacheAfter := cache
            frontendDetections := nargs
            gcAccumulated := []
            gcReleased := []
            cacheHit := false
            tournamentRan := true
            chosen := none
            routeComputations := final.routeComputations
            nullDeref := final.nullDeref }

/-! ### Basic facts about weights and the witness scan -/

/-- Irreflexivity of the strict weight order. -/
theorem Weight.lt_irrefl (w : Weight) : Weight.lt w w = false := by
  cases w <;> simp [Weight.lt]

/-- A weight is strictly below `INFINITE` exactly when it is possible. -/
theorem Weight.lt_INFINITE (w : Weight) : Weight.lt w .INFINITE = w.isPossible := by
  cases w <;> rfl

/-- Nothing is strictly below `INFINITE`-from-above: `INFINITE` is maximal. -/
theorem Weight.INFINITE_not_lt (w : Weight) : Weight.lt .INFINITE w = false := rfl

/-- The weight order is total: mutual non-strictness forces equality. -/
theorem Weight.eq_of_not_lt {a b : Weight} (h1 : Weight.lt a b = false)
    (h2 : Weight.lt b a = false) : a = b := by
  cases a <;> cases b <;> simp_all [Weight.lt]
  omega

/-- The witness scan computes exactly the two existential witnesses over
the positions (represented by `List.any` over the zipped vectors): the
first component records a position where known is strictly lighter, the
second a position where suggested is strictly lighter. -/
theorem scanWitnesses_eq (known : List Weight) (suggested : List ConversionRoute)
    (insights : List Insight) :
    scanWitnesses known suggested insights =
      ((known.zip (suggested.zip insights)).any fun p =>
          Weight.lt p.1 (p.2.1.totalWeight p.2.2),
       (known.zip (suggested.zip insights)).any fun p =>
          Weight.lt (p.2.1.totalWeight p.2.2) p.1) := by
  induction known generalizing suggested insights with
  | nil => simp [scanWitnesses]
  | cons k ks ih =>
    cases suggested with
    | nil => simp [scanWitnesses]
    | cons s ss =>
      cases insights with
      | nil => simp [scanWitnesses]
      | cons i is => simp [scanWitnesses, ih]

/-- Outcome table of the ambiguity lattice, as the specification words
it (§4.2): from the pair `(worse_witness, better_witness)` to the
four-valued verdict.  This definition follows the spec's words and is
proved to agree with the source's `compareAlternatives`. -/
def latticeVerdict : Bool → Bool → overloading_relationship
  | false, false => .OL_EQUIVALENT
  | false, true => .OL_BETTER
  | true, false => .OL_WORSE
  | true, true => .OL_AMBIGUOUS

/-- `compareAlternatives` dispatches on the two scan witnesses through
the lattice table. -/
theorem compareAlternatives_dispatch (known : List Weight)
    (suggested : List ConversionRoute) (insights : List Insight) :
    compareAlternatives known suggested insights =
      if known.length = 0 then .OL_BETTER
      else latticeVerdict (scanWitnesses known suggested insights).1
        (scanWitnesses known suggested insights).2 := by
  unfold compareAlternatives
  by_cases h : known.length = 0
  · simp [h]
  · rw [if_neg h, if_neg h]
    rcases hs : scanWitnesses known suggested insights with ⟨w1, w2⟩
    cases w1 <;> cases w2 <;> rfl

/-- Against an all-`INFINITE` known vector, no worse-witness can ever be
found (`INFINITE` is maximal), whatever the suggested routes. -/
theorem scanWitnesses_replicate_fst (n : Nat) (suggested : List ConversionRoute)
    (insights : List Insight) :
    (scanWitnesses (List.replicate n Weight.INFINITE) suggested insights).1 = false := by
  induction n generalizing suggested insights with
  | zero => simp [scanWitnesses]
  | succ m ih =>
    cases suggested with
    | nil => simp [scanWitnesses]
    | cons s ss =>
      cases insights with
      | nil => simp [scanWitnesses]
      | cons i is =>
        simp [List.replicate_succ, scanWitnesses, ih, Weight.lt]

/-- Against the initial all-`INFINITE` champion weights, any nonempty
suggestion whose weights are possible compares `OL_BETTER`. -/
theorem compareAlternatives_replicate_INFINITE (suggested : List ConversionRoute)
    (insights : List Insight) (hne : suggested ≠ [])
    (hlen : insights.length = suggested.length)
    (hposs : ∀ p ∈ suggested.zip insights, (p.1.totalWeight p.2).isPossible = true) :
    compareAlternatives (List.replicate suggested.length Weight.INFINITE)
      suggested insights = .OL_BETTER := by
  obtain ⟨s, ss, rfl⟩ := List.exists_cons_of_ne_nil hne
  cases insights with
  | nil => simp at hlen
  | cons i is =>
    have hp : (s.totalWeight i).isPossible = true := hposs (s, i) (by simp)
    have hfst := scanWitnesses_replicate_fst ss.length ss is
    have hscan : scanWitnesses (List.replicate (s :: ss).length Weight.INFINITE)
        (s :: ss) (i :: is) = (false, true) := by
      rw [List.length_cons, List.replicate_succ]
      simp [scanWitnesses, Weight.lt_INFINITE, Weight.INFINITE_not_lt, hp, hfst]
    rw [compareAlternatives_dispatch, if_neg (by simp), hscan]
    rfl

/-- When the scan finds no witness at all, the suggested weights agree
with the known vector position by position. -/
theorem rememberWeights_eq_of_scan_false (known : List Weight)
    (suggested : List ConversionRoute) (insights : List Insight)
    (hlen1 : known.length = suggested.length)
    (hlen2 : suggested.length = insights.length)
    (h : scanWitnesses known suggested insights = (false, false)) :
    rememberWeights suggested insights = known := by
  induction known generalizing suggested insights with
  | nil =>
    have : suggested = [] := List.length_eq_zero.mp (hlen1.symm)
    subst this
    simp [rememberWeights]
  | cons k ks ih =>
    cases suggested with
    | nil => simp at hlen1
    | cons s ss =>
      cases insights with
      | nil => simp at hlen2
      | cons i is =>
        simp only [scanWitnesses, Prod.mk.injEq, Bool.or_eq_false_iff] at h
        obtain ⟨⟨h1, hr1⟩, h2, hr2⟩ := h
        have hw : s.totalWeight i = k := Weight.eq_of_not_lt h2 h1
        have hrest : rememberWeights ss is = ks :=
          ih ss is (by simpa using hlen1) (by simpa using hlen2) (Prod.ext hr1 hr2)
        have hrest' : List.map (fun p : ConversionRoute × Insight => p.1.totalWeight p.2)
            (ss.zip is) = ks := by simpa [rememberWeights] using hrest
        simp [rememberWeights, hw, hrest']

/-- An `OL_EQUIVALENT` verdict between equal-length vectors means the
suggested candidate's weights equal the known champion weights. -/
theorem rememberWeights_eq_of_equivalent (known : List Weight)
    (suggested : List ConversionRoute) (insights : List Insight)
    (hlen1 : known.length = suggested.length)
    (hlen2 : suggested.length = insights.length)
    (h : compareAlternatives known suggested insights = .OL_EQUIVALENT) :
    rememberWeights suggested insights = known := by
  rw [compareAlternatives_dispatch] at h
  by_cases h0 : known.length = 0
  · rw [if_pos h0] at h
    exact absurd h (by simp)
  · rw [if_neg h0] at h
    rcases hscan : scanWitnesses known suggested insights with ⟨w1, w2⟩
    rw [hscan] at h
    cases w1 <;> cases w2 <;> simp [latticeVerdict] at h
    exact rememberWeights_eq_of_scan_false known suggested insights hlen1 hlen2 hscan

/-- The scan of a vector against the very routes it was computed from
finds no witness. -/
theorem scanWitnesses_self (suggested : List ConversionRoute) (insights : List Insight) :
    scanWitnesses (rememberWeights suggested insights) suggested insights =
      (false, false) := by
  induction suggested generalizing insights with
  | nil => simp [rememberWeights, scanWitnesses]
  | cons s ss ih =>
    cases insights with
    | nil => simp [rememberWeights, scanWitnesses]
    | cons i is =>
      simp [rememberWeights, scanWitnesses, Weight.lt_irrefl] at ih ⊢
      simpa [rememberWeights] using ih is

/-- A candidate compared against its own recorded weights is
`OL_EQUIVALENT` (or `OL_BETTER` for zero arity). -/
theorem compareAlternatives_self (suggested : List ConversionRoute)
    (insights : List Insight) (hne : rememberWeights suggested insights ≠ []) :
    compareAlternatives (rememberWeights suggested insights) suggested insights =
      .OL_EQUIVALENT := by
  rw [compareAlternatives_dispatch, if_neg (by simpa [List.length_eq_zero] using hne),
    scanWitnesses_self]
  rfl

/-- The champion weight vector extracted from routes is possible exactly
when every per-position total weight is. -/
theorem conversionPossible_rememberWeights (suggested : List ConversionRoute)
    (insights : List Insight) :
    conversionPossible (rememberWeights suggested insights) =
      (suggested.zip insights).all fun p => (p.1.totalWeight p.2).isPossible := by
  induction suggested generalizing insights with
  | nil => rfl
  | cons s ss ih =>
    cases insights with
    | nil => rfl
    | cons i is =>
      simp only [rememberWeights, conversionPossible, List.zip_cons_cons, List.map_cons,
        List.all_cons] at ih ⊢
      rw [ih]

/-- Element-wise identity of two equal-length handle lists is equality. -/
theorem zip_all_beq {l1 l2 : List Nat} (hlen : l1.length = l2.length) :
    (((l1.zip l2).all fun p => p.1 == p.2) = true) ↔ l1 = l2 := by
  induction l1 generalizing l2 with
  | nil =>
    have : l2 = [] := List.length_eq_zero.mp hlen.symm
    subst this; simp
  | cons a as ih =>
    cases l2 with
    | nil => simp at hlen
    | cons b bs =>
      simp only [List.zip_cons_cons, List.all_cons, Bool.and_eq_true, beq_iff_eq,
        List.cons.injEq]
      exact and_congr Iff.rfl (ih (by simpa using hlen))

/-- `identicalAlternatives` holds exactly when the signatures are
element-wise identical. -/
theorem identicalAlternatives_iff (a b : CFunction) :
    identicalAlternatives a b = true ↔ a.signature = b.signature := by
  unfold identicalAlternatives
  by_cases h : a.signature.length = b.signature.length
  · rw [if_neg (by simpa using h)]
    exact zip_all_beq h
  · rw [if_pos (by simpa using h)]
    constructor
    · intro hf; simp at hf
    · intro he; exact absurd (congrArg List.length he) h

/-- `identicalAlternatives` decides element-wise identity of signatures. -/
theorem identicalAlternatives_eq_decide (a b : CFunction) :
    identicalAlternatives a b = decide (a.signature = b.signature) := by
  by_cases h : a.signature = b.signature
  · simp [h, (identicalAlternatives_iff a b).mpr h]
  · have hne : identicalAlternatives a b ≠ true :=
      fun hb => h ((identicalAlternatives_iff a b).mp hb)
    rw [Bool.eq_false_iff.mpr hne, decide_eq_false h]

/-- `identicalAlternatives` is symmetric. -/
theorem identicalAlternatives_symm (a b : CFunction) :
    identicalAlternatives a b = identicalAlternatives b a := by
  rw [identicalAlternatives_eq_decide, identicalAlternatives_eq_decide]
  exact decide_eq_decide.mpr eq_comm

/-- The champion weight vector has the length of the shorter input. -/
theorem rememberWeights_length (s : List ConversionRoute) (i : List Insight) :
    (rememberWeights s i).length = min s.length i.length := by
  simp [rememberWeights]

/-- The witness scan only consults the suggested routes through their
total weights: it can be read off the zip of the known vector with the
suggested candidate's weight vector. -/
theorem scanWitnesses_via_weights (known : List Weight)
    (suggested : List ConversionRoute) (insights : List Insight) :
    scanWitnesses known suggested insights =
      ((known.zip (rememberWeights suggested insights)).any fun p =>
        Weight.lt p.1 p.2,
       (known.zip (rememberWeights suggested insights)).any fun p =>
        Weight.lt p.2 p.1) := by
  induction known generalizing suggested insights with
  | nil => simp [scanWitnesses]
  | cons k ks ih =>
    cases suggested with
    | nil => simp [scanWitnesses, rememberWeights]
    | cons s ss =>
      cases insights with
      | nil => simp [scanWitnesses, rememberWeights]
      | cons i is => simp [scanWitnesses, rememberWeights, ih]

/-- Evaluation of a fresh-cache call that ends in the ambiguity verdict:
possible champion weights, a champion present, and a surviving ambiguity
flag yield `OverloadingAmbiguity`. -/
theorem call_fresh_ambiguity (S : OverloadedSet) (frontend : Frontend)
    (table : ConversionTable) (args : List Value)
    (harity : args.length ≤ ARGUMENT_ARRAY_LIMIT) (final : TournState)
    (hfinal : tournLoop table (args.map frontend.detectType)
      (args.map frontend.detectInsight) args.length S.m_alternatives 0
      (initState args.length) = final)
    (hposs : conversionPossible final.lightweight = true)
    (hsome : final.lightest.isNone = false)
    (halert : final.ambiguity_alert = true) :
    (OverloadedSet.call S frontend table [] args).outcome =
      .error .OverloadingAmbiguity := by
  unfold OverloadedSet.call
  rw [if_neg (by omega)]
  dsimp only
  simp only [Cache.recall]
  rw [hfinal]
  simp [hposs, hsome, halert]

/-- Evaluation of a fresh-cache call that ends in the success verdict:
the champion's index is chosen, stored in the cache, and the outcome is
never `OverloadingAmbiguity`. -/
theorem call_fresh_success (S : OverloadedSet) (frontend : Frontend)
    (table : ConversionTable) (args : List Value)
    (harity : args.length ≤ ARGUMENT_ARRAY_LIMIT) (final : TournState)
    (hfinal : tournLoop table (args.map frontend.detectType)
      (args.map frontend.detectInsight) args.length S.m_alternatives 0
      (initState args.length) = final)
    (hposs : conversionPossible final.lightweight = true)
    (m : CFunction) (hm : final.lightest = some m)
    (halert : final.ambiguity_alert = false) :
    (OverloadedSet.call S frontend table [] args).chosen = some final.cached_alt ∧
    (OverloadedSet.call S frontend table [] args).outcome ≠
      .error .OverloadingAmbiguity ∧
    (OverloadedSet.call S frontend table [] args).cacheAfter =
      Cache.remember []
        ⟨S.id, args.map frontend.detectType, args.map frontend.detectInsight⟩
        final.cached_alt := by
  unfold OverloadedSet.call
  rw [if_neg (by omega)]
  dsimp only
  simp only [Cache.recall]
  rw [hfinal, hm]
  cases hn : m.nativeCall (convertSequence args final.lightroutes).1 with
  | error e => simp [hposs, halert, finishCall, hn, Cache.remember]
  | ok r => simp [hposs, halert, finishCall, hn, Cache.remember]

/-- Evaluation of one tournament step on an `OL_BETTER` verdict: the
candidate is adopted as champion with its own routes and weights. -/
theorem tournStep_better_eval (table : ConversionTable)
    (actual_types : List TypeDescriptor) (actual_insights : List Insight)
    (nargs : Nat) (st : TournState) (idx : Nat) (alt : CFunction)
    (needed : List ConversionRoute)
    (harity : alt.signature.length = nargs)
    (hroute : table.bestSequenceRoute actual_types actual_insights alt.signature =
      some needed)
    (hcmp : compareAlternatives st.lightweight needed actual_insights = .OL_BETTER) :
    tournStep table actual_types actual_insights nargs st (idx, alt) =
      { ambiguity_alert := false
        lightest := some alt
        cached_alt := idx
        lightroutes := needed
        lightweight := rememberWeights needed actual_insights
        nullDeref := st.nullDeref
        routeComputations := st.routeComputations + 1 } := by
  simp [tournStep, harity, hroute, hcmp]

/-- The last arity-zero candidate of a list together with its index
(offset by `idx`): the candidate a zero-argument tournament leaves as
champion. -/
def lastNullary : List CFunction → Nat → Option (Nat × CFunction)
  | [], _ => none
  | c :: rest, idx =>
    match lastNullary rest (idx + 1) with
    | some p => some p
    | none => if c.signature.length = 0 then some (idx, c) else none

/-- A list containing an arity-zero candidate has a last one. -/
theorem lastNullary_isSome (l : List CFunction) (idx : Nat)
    (h : (l.filter fun c => c.signature.length == 0).length ≠ 0) :
    (lastNullary l idx).isSome = true := by
  induction l generalizing idx with
  | nil => simp at h
  | cons c rest ih =>
    by_cases hc : c.signature.length = 0
    · rcases hln : lastNullary rest (idx + 1) with _ | p
      · simp [lastNullary, hln, hc]
      · simp [lastNullary, hln]
    · have h' : (rest.filter fun c => c.signature.length == 0).length ≠ 0 := by
        simpa [List.filter_cons, hc] using h
      rcases hln : lastNullary rest (idx + 1) with _ | p
      · have := ih (idx + 1) h'
        rw [hln] at this
        simp at this
      · simp [lastNullary, hln]

/-- On a zero-argument tournament every arity-matching candidate
compares `OL_BETTER`, so the loop keeps adopting: it ends with the last
arity-zero candidate as champion (or the incoming champion when there
is none), an empty champion-weight vector, and no ambiguity alert. -/
theorem tournLoop_zero_arity (table : ConversionTable)
    (hbsr : table.bestSequenceRoute [] [] [] = some []) :
    ∀ (l : List CFunction) (idx : Nat) (st : TournState),
      st.lightweight = [] → st.ambiguity_alert = false →
      (tournLoop table [] [] 0 l idx st).lightweight = [] ∧
      (tournLoop table [] [] 0 l idx st).ambiguity_alert = false ∧
      (tournLoop table [] [] 0 l idx st).lightest =
        (match lastNullary l idx with
         | some p => some p.2
         | none => st.lightest) ∧
      (tournLoop table [] [] 0 l idx st).cached_alt =
        (match lastNullary l idx with
         | some p => p.1
         | none => st.cached_alt) := by
  intro l
  induction l with
  | nil =>
    intro idx st hlw hal
    exact ⟨hlw, hal, rfl, rfl⟩
  | cons c rest ih =>
    intro idx st hlw hal
    by_cases hc : c.signature.length = 0
    · have hsig : c.signature = [] := List.length_eq_zero.mp hc
      have hcmp : compareAlternatives st.lightweight [] [] = .OL_BETTER := by
        rw [hlw]; rfl
      have hstep := tournStep_better_eval table [] [] 0 st idx c [] hc
        (by rw [hsig]; exact hbsr) hcmp
      rw [tournLoop, hstep]
      obtain ⟨h1, h2, h3, h4⟩ := ih (idx + 1)
        { ambiguity_alert := false
          lightest := some c
          cached_alt := idx
          lightroutes := []
          lightweight := rememberWeights [] []
          nullDeref := st.nullDeref
          routeComputations := st.routeComputations + 1 }
        (by rfl) rfl
      refine ⟨h1, h2, ?_, ?_⟩
      · rw [h3]
        rcases hln : lastNullary rest (idx + 1) with _ | p <;>
          simp [lastNullary, hln, hc]
      · rw [h4]
        rcases hln : lastNullary rest (idx + 1) with _ | p <;>
          simp [lastNullary, hln, hc]
    · have hstep : tournStep table [] [] 0 st (idx, c) = st := by
        simp [tournStep, hc]
      rw [tournLoop, hstep]
      obtain ⟨h1, h2, h3, h4⟩ := ih (idx + 1) st hlw hal
      refine ⟨h1, h2, ?_, ?_⟩
      · rw [h3]
        rcases hln : lastNullary rest (idx + 1) with _ | p <;>
          simp [lastNullary, hln, hc]
      · rw [h4]
        rcases hln : lastNullary rest (idx + 1) with _ | p <;>
          simp [lastNullary, hln, hc]

/-- One tournament step preserves the safety invariant: the null
champion handle has not been dereferenced, and while no champion is
present the champion weights are still the initial all-`INFINITE`
vector.  Requires the conversion-table contract: routes returned by a
successful `bestSequenceRoute` are one per formal position and have
possible total weights under the supplied insights. -/
theorem tournStep_nullDeref_preserved (table : ConversionTable)
    (types : List TypeDescriptor) (ins : List Insight) (nargs : Nat)
    (hinslen : ins.length = nargs)
    (hposs : ∀ sig r, table.bestSequenceRoute types ins sig = some r →
      ∀ p ∈ r.zip ins, (p.1.totalWeight p.2).isPossible = true)
    (hlen : ∀ sig r, table.bestSequenceRoute types ins sig = some r →
      r.length = sig.length)
    (st : TournState) (idx : Nat) (c : CFunction)
    (h1 : st.nullDeref = false)
    (h2 : st.lightest = none → st.lightweight = List.replicate nargs Weight.INFINITE) :
    (tournStep table types ins nargs st (idx, c)).nullDeref = false ∧
    ((tournStep table types ins nargs st (idx, c)).lightest = none →
      (tournStep table types ins nargs st (idx, c)).lightweight =
        List.replicate nargs Weight.INFINITE) := by
  by_cases hsig : c.signature.length = nargs
  · rcases hr : table.bestSequenceRoute types ins c.signature with _ | needed
    · -- NoApplicableConversion: candidate disqualified, state untouched
      have hstep : tournStep table types ins nargs st (idx, c) =
          { st with routeComputations := st.routeComputations + 1 } := by
        simp [tournStep, hsig, hr]
      rw [hstep]
      exact ⟨h1, h2⟩
    · rcases hcmp : compareAlternatives st.lightweight needed ins with _ | _ | _ | _
      · -- OL_BETTER: a champion is adopted
        have hstep : tournStep table types ins nargs st (idx, c) =
            { ambiguity_alert := false
              lightest := some c
              cached_alt := idx
              lightroutes := needed
              lightweight := rememberWeights needed ins
              nullDeref := st.nullDeref
              routeComputations := st.routeComputations + 1 } := by
          simp [tournStep, hsig, hr, hcmp]
        rw [hstep]
        refine ⟨h1, ?_⟩
        intro hn
        simp at hn
      · -- OL_WORSE: candidate ignored
        have hstep : tournStep table types ins nargs st (idx, c) =
            { st with routeComputations := st.routeComputations + 1 } := by
          simp [tournStep, hsig, hr, hcmp]
        rw [hstep]
        exact ⟨h1, h2⟩
      all_goals {
        -- OL_EQUIVALENT / OL_AMBIGUOUS: the champion handle is consulted,
        -- but under the table contract it cannot still be null
        have hnotnone : st.lightest ≠ none := by
          intro hnone
          have hlw := h2 hnone
          have hlen' : needed.length = nargs := (hlen _ _ hr).trans hsig
          have hcon : compareAlternatives st.lightweight needed ins = .OL_BETTER := by
            rw [hlw, ← hlen']
            by_cases h0 : needed = []
            · subst h0
              rfl
            · exact compareAlternatives_replicate_INFINITE needed ins h0
                (by rw [hinslen, ← hlen']) (hposs _ _ hr)
          rw [hcon] at hcmp
          exact overloading_relationship.noConfusion hcmp
        rcases hl : st.lightest with _ | c0
        · exact absurd hl hnotnone
        · have hstep : tournStep table types ins nargs st (idx, c) =
              (if identicalAlternativesOpt st.lightest c then
                { st with nullDeref := st.nullDeref || st.lightest.isNone
                          routeComputations := st.routeComputations + 1 }
               else
                { st with ambiguity_alert := true
                          nullDeref := st.nullDeref || st.lightest.isNone
                          routeComputations := st.routeComputations + 1 }) := by
            simp [tournStep, hsig, hr, hcmp]
          rw [hstep]
          constructor
          · split <;> simp [h1, hl]
          · intro hn
            split at hn <;> simp [hl] at hn
      }
  · have hstep : tournStep table types ins nargs st (idx, c) = st := by
      simp [tournStep, hsig]
    rw [hstep]
    exact ⟨h1, h2⟩

/-- The whole tournament never dereferences a null champion handle,
under the conversion-table contract. -/
theorem tournLoop_nullDeref_free (table : ConversionTable)
    (types : List TypeDescriptor) (ins : List Insight) (nargs : Nat)
    (hinslen : ins.length = nargs)
    (hposs : ∀ sig r, table.bestSequenceRoute types ins sig = some r →
      ∀ p ∈ r.zip ins, (p.1.totalWeight p.2).isPossible = true)
    (hlen : ∀ sig r, table.bestSequenceRoute types ins sig = some r →
      r.length = sig.length) :
    ∀ (l : List CFunction) (idx : Nat) (st : TournState),
      st.nullDeref = false →
      (st.lightest = none → st.lightweight = List.replicate nargs Weight.INFINITE) →
      (tournLoop table types ins nargs l idx st).nullDeref = false := by
  intro l
  induction l with
  | nil => intro idx st h1 _; exact h1
  | cons c rest ih =>
    intro idx st h1 h2
    rw [tournLoop]
    obtain ⟨h1', h2'⟩ := tournStep_nullDeref_preserved table types ins nargs
      hinslen hposs hlen st idx c h1 h2
    exact ih (idx + 1) _ h1' h2'

/-- A freshly remembered entry is recalled. -/
theorem Cache.recall_remember_self (c : Cache) (k : CacheKey) (v : Nat) :
    Cache.recall (Cache.remember c k v) k = some v := by
  simp [Cache.recall, Cache.remember]

/-- The cache recorded by `finishCall` does not depend on the native
call's outcome. -/
theorem finishCall_cacheAfter (table : ConversionTable) (m : CFunction)
    (converted_args transients : List Value) (cacheAfter : Cache) (nargs : Nat)
    (hit tournamentRan : Bool) (chosen : Option Nat) (rc : Nat) (nd : Bool) :
    (finishCall table m converted_args transients cacheAfter nargs hit
      tournamentRan chosen rc nd).cacheAfter = cacheAfter := by
  unfold finishCall
  cases m.nativeCall converted_args <;> rfl

/-- The chosen index reported by `finishCall` does not depend on the
native call's outcome. -/
theorem finishCall_chosen (table : ConversionTable) (m : CFunction)
    (converted_args transients : List Value) (cacheAfter : Cache) (nargs : Nat)
    (hit tournamentRan : Bool) (chosen : Option Nat) (rc : Nat) (nd : Bool) :
    (finishCall table m converted_args transients cacheAfter nargs hit
      tournamentRan chosen rc nd).chosen = chosen := by
  unfold finishCall
  cases m.nativeCall converted_args <;> rfl

/-- The hit flag reported by `finishCall` does not depend on the native
call's outcome. -/
theorem finishCall_cacheHit (table : ConversionTable) (m : CFunction)
    (converted_args transients : List Value) (cacheAfter : Cache) (nargs : Nat)
    (hit tournamentRan : Bool) (chosen : Option Nat) (rc : Nat) (nd : Bool) :
    (finishCall table m converted_args transients cacheAfter nargs hit
      tournamentRan chosen rc nd).cacheHit = hit := by
  unfold finishCall
  cases m.nativeCall converted_args <;> rfl

/-- The tournament flag reported by `finishCall` does not depend on the
native call's outcome. -/
theorem finishCall_tournamentRan (table : ConversionTable) (m : CFunction)
    (converted_args transients : List Value) (cacheAfter : Cache) (nargs : Nat)
    (hit tournamentRan : Bool) (chosen : Option Nat) (rc : Nat) (nd : Bool) :
    (finishCall table m converted_args transients cacheAfter nargs hit
      tournamentRan chosen rc nd).tournamentRan = tournamentRan := by
  unfold finishCall
  cases m.nativeCall converted_args <;> rfl

/-- The route-computation count reported by `finishCall` does not depend
on the native call's outcome. -/
theorem finishCall_routeComputations (table : ConversionTable) (m : CFunction)
    (converted_args transients : List Value) (cacheAfter : Cache) (nargs : Nat)
    (hit tournamentRan : Bool) (chosen : Option Nat) (rc : Nat) (nd : Bool) :
    (finishCall table m converted_args transients cacheAfter nargs hit
      tournamentRan chosen rc nd).routeComputations = rc := by
  unfold finishCall
  cases m.nativeCall converted_args <;> rfl

/-- The outcome of `finishCall` depends only on the candidate, the
converted arguments, and the table. -/
theorem finishCall_outcome_eq (table : ConversionTable) (m : CFunction)
    (converted_args transients₁ transients₂ : List Value)
    (cacheAfter₁ cacheAfter₂ : Cache) (nargs₁ nargs₂ : Nat)
    (hit₁ hit₂ tRan₁ tRan₂ : Bool) (chosen₁ chosen₂ : Option Nat)
    (rc₁ rc₂ : Nat) (nd₁ nd₂ : Bool) :
    (finishCall table m converted_args transients₁ cacheAfter₁ nargs₁ hit₁ tRan₁
      chosen₁ rc₁ nd₁).outcome =
    (finishCall table m converted_args transients₂ cacheAfter₂ nargs₂ hit₂ tRan₂
      chosen₂ rc₂ nd₂).outcome := by
  unfold finishCall
  cases m.nativeCall converted_args <;> rfl

/-- Along the tournament, whenever a champion is present its recorded
index addresses it in the full candidate list `L`, and its recorded
routes are exactly what `bestSequenceRoute` returns for its signature. -/
theorem tournLoop_champion_sound (table : ConversionTable)
    (types : List TypeDescriptor) (ins : List Insight) (nargs : Nat)
    (L : List CFunction) :
    ∀ (l : List CFunction) (idx : Nat) (st : TournState),
      (∀ k, l.get? k = L.get? (idx + k)) →
      (st.lightest = none ∨ ∃ c, st.lightest = some c ∧
        L.get? st.cached_alt = some c ∧
        table.bestSequenceRoute types ins c.signature = some st.lightroutes) →
      ((tournLoop table types ins nargs l idx st).lightest = none ∨
        ∃ c, (tournLoop table types ins nargs l idx st).lightest = some c ∧
          L.get? (tournLoop table types ins nargs l idx st).cached_alt = some c ∧
          table.bestSequenceRoute types ins c.signature =
            some (tournLoop table types ins nargs l idx st).lightroutes) := by
  intro l
  induction l with
  | nil => intro idx st _ hinv; exact hinv
  | cons c rest ih =>
    intro idx st hsub hinv
    rw [tournLoop]
    apply ih
    · intro k
      have h := hsub (k + 1)
      simp only [List.get?_cons_succ] at h
      rw [h]
      congr 1
      omega
    · by_cases hsig : c.signature.length = nargs
      · rcases hr : table.bestSequenceRoute types ins c.signature with _ | needed
        · have hstep : tournStep table types ins nargs st (idx, c) =
              { st with routeComputations := st.routeComputations + 1 } := by
            simp [tournStep, hsig, hr]
          rw [hstep]
          exact hinv
        · rcases hcmp : compareAlternatives st.lightweight needed ins
            with _ | _ | _ | _
          · -- OL_BETTER: `c` itself at index `idx`
            have hstep := tournStep_better_eval table types ins nargs st idx c
              needed hsig hr hcmp
            rw [hstep]
            refine Or.inr ⟨c, rfl, ?_, hr⟩
            have := hsub 0
            simpa using this.symm
          · have hstep : tournStep table types ins nargs st (idx, c) =
                { st with routeComputations := st.routeComputations + 1 } := by
              simp [tournStep, hsig, hr, hcmp]
            rw [hstep]
            exact hinv
          all_goals {
            have hstep : tournStep table types ins nargs st (idx, c) =
                (if identicalAlternativesOpt st.lightest c then
                  { st with nullDeref := st.nullDeref || st.lightest.isNone
                            routeComputations := st.routeComputations + 1 }
                 else
                  { st with ambiguity_alert := true
                            nullDeref := st.nullDeref || st.lightest.isNone
                            routeComputations := st.routeComputations + 1 }) := by
              simp [tournStep, hsig, hr, hcmp]
            rw [hstep]
            split <;> exact hinv
          }
      · have hstep : tournStep table types ins nargs st (idx, c) = st := by
          simp [tournStep, hsig]
        rw [hstep]
        exact hinv

/-- Evaluation of the cache-hit fast path of `call`: the cached index is
authoritative, routes are recomputed once for that single candidate,
the arguments converted and the candidate invoked. -/
theorem call_hit_eval (S : OverloadedSet) (frontend : Frontend)
    (table : ConversionTable) (cache : Cache) (args : List Value)
    (i : Nat) (m : CFunction) (needed : List ConversionRoute)
    (hari : ¬ args.length > ARGUMENT_ARRAY_LIMIT)
    (hrec : Cache.recall cache
      ⟨S.id, args.map frontend.detectType, args.map frontend.detectInsight⟩ = some i)
    (hget : S.m_alternatives.get? i = some m)
    (hbsr : table.bestSequenceRoute (args.map frontend.detectType)
      (args.map frontend.detectInsight) m.signature = some needed) :
    S.call frontend table cache args =
      finishCall table m (convertSequence args needed).1
        (convertSequence args needed).2 cache args.length true false (some i) 1
        false := by
  unfold OverloadedSet.call
  rw [if_neg hari]
  dsimp only
  rw [hrec]
  dsimp only
  rw [hget]
  dsimp only
  rw [hbsr]

/-- Evaluation of a cache-miss call that reaches the success verdict:
it stores the champion index under the fingerprint key, converts the
actuals along the champion routes, and invokes the champion. -/
theorem call_miss_success_eval (S : OverloadedSet) (frontend : Frontend)
    (table : ConversionTable) (cache : Cache) (args : List Value)
    (hari : ¬ args.length > ARGUMENT_ARRAY_LIMIT)
    (hrec : Cache.recall cache
      ⟨S.id, args.map frontend.detectType, args.map frontend.detectInsight⟩ = none)
    (final : TournState)
    (hfinal : tournLoop table (args.map frontend.detectType)
      (args.map frontend.detectInsight) args.length S.m_alternatives 0
      (initState args.length) = final)
    (hposs : conversionPossible final.lightweight = true)
    (m : CFunction) (hm : final.lightest = some m)
    (halert : final.ambiguity_alert = false) :
    S.call frontend table cache args =
      finishCall table m (convertSequence args final.lightroutes).1
        (convertSequence args final.lightroutes).2
        (Cache.remember cache
          ⟨S.id, args.map frontend.detectType, args.map frontend.detectInsight⟩
          final.cached_alt)
        args.length false true (some final.cached_alt) final.routeComputations
        final.nullDeref := by
  unfold OverloadedSet.call
  rw [if_neg hari]
  dsimp only
  rw [hrec]
  dsimp only
  rw [hfinal]
  rw [if_neg (by simp [hposs, hm])]
  rw [if_neg (by simp [halert])]
  rw [hm]

/-! ### Concrete objects used by the witness theorems -/

/-- A conversion route of constant weight `n` whose application is the
identity with no transients. -/
def wRoute (n : Nat) : ConversionRoute :=
  { totalWeight := fun _ => Weight.fin n, apply := fun v => (v, []) }

/-- A candidate with the given signature returning the constant `r`. -/
def wFun (sig : List TypeDescriptor) (r : Value) : CFunction :=
  { signature := sig, returnType := 0, nativeCall := fun _ => .ok r }

/-- A frontend detecting type 0 and insight 0 for every value. -/
def wFrontend : Frontend :=
  { detectType := fun _ => 0, detectInsight := fun _ => 0 }

/-- A conversion table producing, for any formal list of matching
length, one route per position whose weight is the formal type handle. -/
def wTable : ConversionTable :=
  { bestSequenceRoute := fun actual_types _ formals =>
      if formals.length = actual_types.length then some (formals.map wRoute) else none
    getEdgeConversion := fun _ => none }

/-- A conversion table giving every matching-arity signature the same
constant-weight routes, so distinct signatures tie. -/
def wTableConst : ConversionTable :=
  { bestSequenceRoute := fun actual_types _ formals =>
      if formals.length = actual_types.length then
        some (formals.map fun _ => wRoute 1)
      else none
    getEdgeConversion := fun _ => none }

/-! ### The claims -/

/-- **C1.** For equal-length weight vectors, `compareAlternatives`
returns `OL_EQUIVALENT` when no position strictly favours either side,
`OL_BETTER` when some position favours the suggested candidate
(`better_witness`) and none favours the known, `OL_WORSE` in the mirror
case, `OL_AMBIGUOUS` when both witnesses exist — and `OL_BETTER`
unconditionally for zero arity.  The two `List.any` terms are exactly
the existence of a worse-witness and a better-witness position. -/
theorem compareAlternatives_matches_lattice (known : List Weight)
    (suggested : List ConversionRoute) (insights : List Insight)
    (_hlen1 : known.length = suggested.length)
    (_hlen2 : suggested.length = insights.length) :
    compareAlternatives known suggested insights =
      if known.length = 0 then .OL_BETTER
      else latticeVerdict
        ((known.zip (suggested.zip insights)).any fun p =>
          Weight.lt p.1 (p.2.1.totalWeight p.2.2))
        ((known.zip (suggested.zip insights)).any fun p =>
          Weight.lt (p.2.1.totalWeight p.2.2) p.1) := by
  rw [compareAlternatives_dispatch, scanWitnesses_eq]

/-- Witness for C1 at a concrete ambiguous input: position 0 favours
the known vector, position 1 favours the suggested routes. -/
theorem compareAlternatives_matches_lattice_witness :
    ([Weight.fin 1, Weight.fin 2].length = [wRoute 2, wRoute 0].length) ∧
    ([wRoute 2, wRoute 0].length = [0, 0].length) ∧
    compareAlternatives [Weight.fin 1, Weight.fin 2] [wRoute 2, wRoute 0] [0, 0] =
      (if [Weight.fin 1, Weight.fin 2].length = 0 then .OL_BETTER
       else latticeVerdict
        (([Weight.fin 1, Weight.fin 2].zip ([wRoute 2, wRoute 0].zip [0, 0])).any fun p =>
          Weight.lt p.1 (p.2.1.totalWeight p.2.2))
        (([Weight.fin 1, Weight.fin 2].zip ([wRoute 2, wRoute 0].zip [0, 0])).any fun p =>
          Weight.lt (p.2.1.totalWeight p.2.2) p.1)) :=
  ⟨rfl, rfl,
    compareAlternatives_matches_lattice [Weight.fin 1, Weight.fin 2]
      [wRoute 2, wRoute 0] [0, 0] rfl rfl⟩

/-- **C2.** In the tournament, whenever a candidate compares
`OL_BETTER` against the current champion weights, it becomes the
champion, its index and routes are recorded, the ambiguity flag is
cleared, and the stored champion weights are recomputed as the
candidate's own per-position route weights under the current insights
(`rememberWeights needed actual_insights`), not the prior running
minimum. -/
theorem tournStep_adopts_on_better (table : ConversionTable)
    (actual_types : List TypeDescriptor) (actual_insights : List Insight)
    (nargs : Nat) (st : TournState) (idx : Nat) (alt : CFunction)
    (needed : List ConversionRoute)
    (harity : alt.signature.length = nargs)
    (hroute : table.bestSequenceRoute actual_types actual_insights alt.signature =
      some needed)
    (hcmp : compareAlternatives st.lightweight needed actual_insights = .OL_BETTER) :
    tournStep table actual_types actual_insights nargs st (idx, alt) =
      { ambiguity_alert := false
        lightest := some alt
        cached_alt := idx
        lightroutes := needed
        lightweight := rememberWeights needed actual_insights
        nullDeref := st.nullDeref
        routeComputations := st.routeComputations + 1 } :=
  tournStep_better_eval table actual_types actual_insights nargs st idx alt needed
    harity hroute hcmp

/-- Witness for C2: a candidate of signature `[5]` beating the initial
all-`INFINITE` champion weights. -/
theorem tournStep_adopts_on_better_witness :
    ((wFun [5] 0).signature.length = 1) ∧
    (wTable.bestSequenceRoute [0] [0] (wFun [5] 0).signature = some [wRoute 5]) ∧
    (compareAlternatives (initState 1).lightweight [wRoute 5] [0] = .OL_BETTER) ∧
    tournStep wTable [0] [0] 1 (initState 1) (0, wFun [5] 0) =
      { ambiguity_alert := false
        lightest := some (wFun [5] 0)
        cached_alt := 0
        lightroutes := [wRoute 5]
        lightweight := rememberWeights [wRoute 5] [0]
        nullDeref := (initState 1).nullDeref
        routeComputations := (initState 1).routeComputations + 1 } :=
  ⟨rfl, rfl, rfl,
    tournStep_adopts_on_better wTable [0] [0] 1 (initState 1) 0 (wFun [5] 0)
      [wRoute 5] rfl rfl rfl⟩

/-- **C3.** On every exit path of `OverloadedSet::call` — success,
`OverloadingNoMatch`, `OverloadingAmbiguity`, or a native exception —
the values accumulated in the garbage-collection sink during the call
are released exactly once before the call exits: on success by the
explicit `gc.cleanUp()` (which empties the sink so that the scope-exit
destructor releases nothing further), on every other path by the
destructor alone. -/
theorem call_releases_sink_exactly_once (S : OverloadedSet) (frontend : Frontend)
    (table : ConversionTable) (cache : Cache) (args : List Value) :
    (S.call frontend table cache args).gcReleased =
        (S.call frontend table cache args).gcAccumulated ∧
      ∀ v : Value, (S.call frontend table cache args).gcReleased.count v =
        (S.call frontend table cache args).gcAccumulated.count v := by
  have h : (S.call frontend table cache args).gcReleased =
      (S.call frontend table cache args).gcAccumulated := by
    unfold OverloadedSet.call finishCall
    dsimp only
    repeat' split
    all_goals simp
  exact ⟨h, fun v => by rw [h]⟩

/-- **C4.** Whenever more than 12 actual arguments are supplied, `call`
fails with `ArgumentArrayLimitExceeded`, and it does so before any
frontend interaction beyond counting: neither `detectType` nor
`detectInsight` is invoked on any actual argument. -/
theorem call_arity_gate (S : OverloadedSet) (frontend : Frontend)
    (table : ConversionTable) (cache : Cache) (args : List Value)
    (h : args.length > ARGUMENT_ARRAY_LIMIT) :
    (S.call frontend table cache args).outcome = .error .ArgumentArrayLimitExceeded ∧
    (S.call frontend table cache args).frontendDetections = 0 := by
  unfold OverloadedSet.call
  rw [if_pos h]
  exact ⟨rfl, rfl⟩

/-- Witness for C4: thirteen arguments trip the gate. -/
theorem call_arity_gate_witness :
    ((List.replicate 13 (0 : Value)).length > ARGUMENT_ARRAY_LIMIT) ∧
    ((OverloadedSet.call ⟨0, []⟩ wFrontend wTable [] (List.replicate 13 0)).outcome =
      .error .ArgumentArrayLimitExceeded) ∧
    (OverloadedSet.call ⟨0, []⟩ wFrontend wTable [] (List.replicate 13 0)).frontendDetections
      = 0 := by
  refine ⟨by decide, ?_⟩
  exact call_arity_gate ⟨0, []⟩ wFrontend wTable [] (List.replicate 13 0) (by decide)

/-- **C7.** A set with no registered candidates fails every call of
arity at most 12 (hitting no stale cache entry) with
`OverloadingNoMatch`: the tournament examines no candidate
(`routeComputations = 0`), no champion is ever set (`chosen = none`),
and the no-match verdict is reached. -/
theorem call_empty_set_no_match (S : OverloadedSet) (frontend : Frontend)
    (table : ConversionTable) (cache : Cache) (args : List Value)
    (hempty : S.m_alternatives = [])
    (harity : args.length ≤ ARGUMENT_ARRAY_LIMIT)
    (hmiss : Cache.recall cache
      ⟨S.id, args.map frontend.detectType, args.map frontend.detectInsight⟩ = none) :
    (S.call frontend table cache args).outcome = .error .OverloadingNoMatch ∧
    (S.call frontend table cache args).chosen = none ∧
    (S.call frontend table cache args).routeComputations = 0 ∧
    (S.call frontend table cache args).cacheHit = false := by
  unfold OverloadedSet.call
  rw [if_neg (by omega)]
  dsimp only
  rw [hmiss, hempty]
  simp [tournLoop, initState]

/-- Witness for C7: the empty set on a nullary call with a fresh cache. -/
theorem call_empty_set_no_match_witness :
    ((⟨0, []⟩ : OverloadedSet).m_alternatives = []) ∧
    (([] : List Value).length ≤ ARGUMENT_ARRAY_LIMIT) ∧
    (Cache.recall ([] : Cache) ⟨0, [], []⟩ = none) ∧
    (OverloadedSet.call ⟨0, []⟩ wFrontend wTable [] []).outcome =
      .error .OverloadingNoMatch ∧
    (OverloadedSet.call ⟨0, []⟩ wFrontend wTable [] []).chosen = none ∧
    (OverloadedSet.call ⟨0, []⟩ wFrontend wTable [] []).routeComputations = 0 ∧
    (OverloadedSet.call ⟨0, []⟩ wFrontend wTable [] []).cacheHit = false := by
  refine ⟨rfl, by decide, rfl, ?_⟩
  exact call_empty_set_no_match ⟨0, []⟩ wFrontend wTable [] [] rfl (by decide) rfl

/-- **C5.** When a set consists of two candidates `A` and `B` of the
call's arity that are not `identicalAlternatives` and whose route-weight
vectors (with possible weights, as the conversion-table contract
guarantees for returned routes) compare `OL_EQUIVALENT` on the given
actuals, the call fails with `OverloadingAmbiguity` — whether `A` is
registered before `B` or `B` before `A`. -/
theorem call_equivalent_tie_ambiguous (gid : Nat) (A B : CFunction)
    (frontend : Frontend) (table : ConversionTable) (args : List Value)
    (rA rB : List ConversionRoute)
    (harity : args.length ≤ ARGUMENT_ARRAY_LIMIT)
    (hA : A.signature.length = args.length)
    (hB : B.signature.length = args.length)
    (hnid : identicalAlternatives A B = false)
    (hrA : table.bestSequenceRoute (args.map frontend.detectType)
      (args.map frontend.detectInsight) A.signature = some rA)
    (hrB : table.bestSequenceRoute (args.map frontend.detectType)
      (args.map frontend.detectInsight) B.signature = some rB)
    (hlenA : rA.length = args.length)
    (hlenB : rB.length = args.length)
    (hposs : conversionPossible
      (rememberWeights rA (args.map frontend.detectInsight)) = true)
    (heq : compareAlternatives (rememberWeights rA (args.map frontend.detectInsight))
      rB (args.map frontend.detectInsight) = .OL_EQUIVALENT) :
    (OverloadedSet.call ⟨gid, [A, B]⟩ frontend table [] args).outcome =
      .error .OverloadingAmbiguity ∧
    (OverloadedSet.call ⟨gid, [B, A]⟩ frontend table [] args).outcome =
      .error .OverloadingAmbiguity := by
  set types := args.map frontend.detectType with htypes
  set ins := args.map frontend.detectInsight with hins
  have hleni : ins.length = args.length := by rw [hins]; exact List.length_map _ _
  -- the arity is positive: arity-zero non-identical candidates cannot exist
  have hne0 : args.length ≠ 0 := by
    intro h0
    have hA0 : A.signature = [] := List.length_eq_zero.mp (hA.trans h0)
    have hB0 : B.signature = [] := List.length_eq_zero.mp (hB.trans h0)
    rw [(identicalAlternatives_iff A B).mpr (hA0.trans hB0.symm)] at hnid
    exact Bool.noConfusion hnid
  have hAne : rA ≠ [] := by
    intro h0; rw [h0] at hlenA; exact hne0 hlenA.symm
  have hBne : rB ≠ [] := by
    intro h0; rw [h0] at hlenB; exact hne0 hlenB.symm
  -- per-position possibility of A's weights, and equality of B's weights with A's
  have hpossA : ∀ p ∈ rA.zip ins, (p.1.totalWeight p.2).isPossible = true := by
    have := (conversionPossible_rememberWeights rA ins) ▸ hposs
    exact fun p hp => List.all_eq_true.mp this p hp
  have hwAlen : (rememberWeights rA ins).length = args.length := by
    rw [rememberWeights_length, hlenA, hleni, Nat.min_self]
  have hwBA : rememberWeights rB ins = rememberWeights rA ins :=
    rememberWeights_eq_of_equivalent _ rB ins
      (by rw [hwAlen, hlenB]) (by rw [hlenB, hleni]) heq
  have hpossB : ∀ p ∈ rB.zip ins, (p.1.totalWeight p.2).isPossible = true := by
    have h1 : conversionPossible (rememberWeights rB ins) = true := by
      rw [hwBA]; exact hposs
    have := (conversionPossible_rememberWeights rB ins) ▸ h1
    exact fun p hp => List.all_eq_true.mp this p hp
  have hwAne : rememberWeights rA ins ≠ [] := by
    intro h0
    rw [h0] at hwAlen
    exact hne0 hwAlen.symm
  constructor
  · -- order [A, B]
    have hcmpA : compareAlternatives (initState args.length).lightweight rA ins =
        .OL_BETTER := by
      show compareAlternatives (List.replicate args.length Weight.INFINITE) rA ins =
        .OL_BETTER
      rw [← hlenA]
      exact compareAlternatives_replicate_INFINITE rA ins hAne
        (by rw [hleni, hlenA]) hpossA
    have hstep1 := tournStep_better_eval table types ins args.length
      (initState args.length) 0 A rA hA hrA hcmpA
    have hcmpB : compareAlternatives
        (rememberWeights rA ins) rB ins = .OL_EQUIVALENT := heq
    have hfinal : tournLoop table types ins args.length [A, B] 0
        (initState args.length) =
        { ambiguity_alert := true
          lightest := some A
          cached_alt := 0
          lightroutes := rA
          lightweight := rememberWeights rA ins
          nullDeref := false
          routeComputations := 2 } := by
      simp only [tournLoop, hstep1]
      simp [tournStep, hB, hrB, hcmpB, identicalAlternativesOpt, hnid, initState]
    exact call_fresh_ambiguity ⟨gid, [A, B]⟩ frontend table args harity _ hfinal
      hposs rfl rfl
  · -- order [B, A]
    have hcmpB : compareAlternatives (initState args.length).lightweight rB ins =
        .OL_BETTER := by
      show compareAlternatives (List.replicate args.length Weight.INFINITE) rB ins =
        .OL_BETTER
      rw [← hlenB]
      exact compareAlternatives_replicate_INFINITE rB ins hBne
        (by rw [hleni, hlenB]) hpossB
    have hstep1 := tournStep_better_eval table types ins args.length
      (initState args.length) 0 B rB hB hrB hcmpB
    have hcmpA : compareAlternatives (rememberWeights rB ins) rA ins =
        .OL_EQUIVALENT := by
      rw [hwBA]
      exact compareAlternatives_self rA ins hwAne
    have hnid' : identicalAlternatives B A = false := by
      rw [identicalAlternatives_symm]; exact hnid
    have hfinal : tournLoop table types ins args.length [B, A] 0
        (initState args.length) =
        { ambiguity_alert := true
          lightest := some B
          cached_alt := 0
          lightroutes := rB
          lightweight := rememberWeights rB ins
          nullDeref := false
          routeComputations := 2 } := by
      simp only [tournLoop, hstep1]
      simp [tournStep, hA, hrA, hcmpA, identicalAlternativesOpt, hnid', initState]
    refine call_fresh_ambiguity ⟨gid, [B, A]⟩ frontend table args harity _ hfinal
      ?_ rfl rfl
    rw [hwBA]; exact hposs

/-- **C8.** When `A`'s route-weight vector is strictly lighter than
`B`'s at some position and no worse at any position (strict domination)
on the given actuals, a two-candidate set selects `A` whether `A` is
registered before `B` (chosen index 0) or after it (chosen index 1). -/
theorem call_strict_domination_wins (gid : Nat) (A B : CFunction)
    (frontend : Frontend) (table : ConversionTable) (args : List Value)
    (rA rB : List ConversionRoute)
    (harity : args.length ≤ ARGUMENT_ARRAY_LIMIT)
    (hA : A.signature.length = args.length)
    (hB : B.signature.length = args.length)
    (hrA : table.bestSequenceRoute (args.map frontend.detectType)
      (args.map frontend.detectInsight) A.signature = some rA)
    (hrB : table.bestSequenceRoute (args.map frontend.detectType)
      (args.map frontend.detectInsight) B.signature = some rB)
    (hlenA : rA.length = args.length)
    (hlenB : rB.length = args.length)
    (hpossA : conversionPossible
      (rememberWeights rA (args.map frontend.detectInsight)) = true)
    (hpossB : conversionPossible
      (rememberWeights rB (args.map frontend.detectInsight)) = true)
    (hdom_some : ∃ p ∈ (rememberWeights rA (args.map frontend.detectInsight)).zip
        (rememberWeights rB (args.map frontend.detectInsight)),
      Weight.lt p.1 p.2 = true)
    (hdom_none : ∀ p ∈ (rememberWeights rA (args.map frontend.detectInsight)).zip
        (rememberWeights rB (args.map frontend.detectInsight)),
      Weight.lt p.2 p.1 = false) :
    (OverloadedSet.call ⟨gid, [A, B]⟩ frontend table [] args).chosen = some 0 ∧
    (OverloadedSet.call ⟨gid, [B, A]⟩ frontend table [] args).chosen = some 1 ∧
    (OverloadedSet.call ⟨gid, [A, B]⟩ frontend table [] args).outcome ≠
      .error .OverloadingAmbiguity ∧
    (OverloadedSet.call ⟨gid, [B, A]⟩ frontend table [] args).outcome ≠
      .error .OverloadingAmbiguity := by
  set types := args.map frontend.detectType with htypes
  set ins := args.map frontend.detectInsight with hins
  have hleni : ins.length = args.length := by rw [hins]; exact List.length_map _ _
  have hwAlen : (rememberWeights rA ins).length = args.length := by
    rw [rememberWeights_length, hlenA, hleni, Nat.min_self]
  have hwBlen : (rememberWeights rB ins).length = args.length := by
    rw [rememberWeights_length, hlenB, hleni, Nat.min_self]
  have hne0 : args.length ≠ 0 := by
    intro h0
    obtain ⟨p, hp, _⟩ := hdom_some
    have hwA0 : rememberWeights rA ins = [] := List.length_eq_zero.mp (hwAlen.trans h0)
    rw [hwA0] at hp
    simp at hp
  have hAne : rA ≠ [] := fun h0 => hne0 (by rw [← hlenA, h0]; rfl)
  have hBne : rB ≠ [] := fun h0 => hne0 (by rw [← hlenB, h0]; rfl)
  have hpossA' : ∀ p ∈ rA.zip ins, (p.1.totalWeight p.2).isPossible = true := by
    have := (conversionPossible_rememberWeights rA ins) ▸ hpossA
    exact fun p hp => List.all_eq_true.mp this p hp
  have hpossB' : ∀ p ∈ rB.zip ins, (p.1.totalWeight p.2).isPossible = true := by
    have := (conversionPossible_rememberWeights rB ins) ▸ hpossB
    exact fun p hp => List.all_eq_true.mp this p hp
  -- the two boolean domination witnesses
  have hany1 : (((rememberWeights rA ins).zip (rememberWeights rB ins)).any
      fun p => Weight.lt p.1 p.2) = true := by
    rw [List.any_eq_true]
    obtain ⟨p, hp, hl⟩ := hdom_some
    exact ⟨p, hp, hl⟩
  have hany2 : (((rememberWeights rA ins).zip (rememberWeights rB ins)).any
      fun p => Weight.lt p.2 p.1) = false := by
    rw [Bool.eq_false_iff]
    intro hc
    rw [List.any_eq_true] at hc
    obtain ⟨p, hp, hl⟩ := hc
    rw [hdom_none p hp] at hl
    exact Bool.noConfusion hl
  have hswap : (rememberWeights rB ins).zip (rememberWeights rA ins) =
      ((rememberWeights rA ins).zip (rememberWeights rB ins)).map Prod.swap :=
    (List.zip_swap _ _).symm
  -- comparison of B against champion A: WORSE
  have hcmpAB : compareAlternatives (rememberWeights rA ins) rB ins = .OL_WORSE := by
    rw [compareAlternatives_dispatch, if_neg (by rw [hwAlen]; exact hne0),
      scanWitnesses_via_weights, hany1, hany2]
    rfl
  -- comparison of A against champion B: BETTER
  have hcmpBA : compareAlternatives (rememberWeights rB ins) rA ins = .OL_BETTER := by
    have h1 : (((rememberWeights rB ins).zip (rememberWeights rA ins)).any
        fun p => Weight.lt p.1 p.2) = false := by
      rw [hswap, List.any_map]
      exact hany2
    have h2 : (((rememberWeights rB ins).zip (rememberWeights rA ins)).any
        fun p => Weight.lt p.2 p.1) = true := by
      rw [hswap, List.any_map]
      exact hany1
    rw [compareAlternatives_dispatch, if_neg (by rw [hwBlen]; exact hne0),
      scanWitnesses_via_weights, h1, h2]
    rfl
  -- tournament for the order [A, B]
  have hcmpA1 : compareAlternatives (initState args.length).lightweight rA ins =
      .OL_BETTER := by
    show compareAlternatives (List.replicate args.length Weight.INFINITE) rA ins =
      .OL_BETTER
    rw [← hlenA]
    exact compareAlternatives_replicate_INFINITE rA ins hAne (by rw [hleni, hlenA])
      hpossA'
  have hstep1 := tournStep_better_eval table types ins args.length
    (initState args.length) 0 A rA hA hrA hcmpA1
  have hfinalAB : tournLoop table types ins args.length [A, B] 0
      (initState args.length) =
      { ambiguity_alert := false
        lightest := some A
        cached_alt := 0
        lightroutes := rA
        lightweight := rememberWeights rA ins
        nullDeref := false
        routeComputations := 2 } := by
    simp only [tournLoop]
    rw [hstep1]
    simp [tournStep, hB, hrB, hcmpAB, initState]
  have hsuccAB := call_fresh_success ⟨gid, [A, B]⟩ frontend table args harity _
    hfinalAB hpossA A rfl rfl
  -- tournament for the order [B, A]
  have hcmpB1 : compareAlternatives (initState args.length).lightweight rB ins =
      .OL_BETTER := by
    show compareAlternatives (List.replicate args.length Weight.INFINITE) rB ins =
      .OL_BETTER
    rw [← hlenB]
    exact compareAlternatives_replicate_INFINITE rB ins hBne (by rw [hleni, hlenB])
      hpossB'
  have hstep1' := tournStep_better_eval table types ins args.length
    (initState args.length) 0 B rB hB hrB hcmpB1
  have hfinalBA : tournLoop table types ins args.length [B, A] 0
      (initState args.length) =
      { ambiguity_alert := false
        lightest := some A
        cached_alt := 1
        lightroutes := rA
        lightweight := rememberWeights rA ins
        nullDeref := false
        routeComputations := 2 } := by
    simp only [tournLoop]
    rw [hstep1']
    simp [tournStep, hA, hrA, hcmpBA, initState]
  have hsuccBA := call_fresh_success ⟨gid, [B, A]⟩ frontend table args harity _
    hfinalBA hpossA A rfl rfl
  exact ⟨hsuccAB.1, hsuccBA.1, hsuccAB.2.1, hsuccBA.2.1⟩

/-- Witness for C5: candidates of signatures `[1]` and `[2]` tying with
equal weight vectors on one argument; both registration orders end in
`OverloadingAmbiguity`. -/
theorem call_equivalent_tie_ambiguous_witness :
    (([7] : List Value).length ≤ ARGUMENT_ARRAY_LIMIT) ∧
    ((wFun [1] 10).signature.length = ([7] : List Value).length) ∧
    ((wFun [2] 20).signature.length = ([7] : List Value).length) ∧
    (identicalAlternatives (wFun [1] 10) (wFun [2] 20) = false) ∧
    (wTableConst.bestSequenceRoute (([7] : List Value).map wFrontend.detectType)
      (([7] : List Value).map wFrontend.detectInsight) (wFun [1] 10).signature =
      some [wRoute 1]) ∧
    (wTableConst.bestSequenceRoute (([7] : List Value).map wFrontend.detectType)
      (([7] : List Value).map wFrontend.detectInsight) (wFun [2] 20).signature =
      some [wRoute 1]) ∧
    ([wRoute 1].length = ([7] : List Value).length) ∧
    (conversionPossible (rememberWeights [wRoute 1]
      (([7] : List Value).map wFrontend.detectInsight)) = true) ∧
    (compareAlternatives (rememberWeights [wRoute 1]
        (([7] : List Value).map wFrontend.detectInsight)) [wRoute 1]
      (([7] : List Value).map wFrontend.detectInsight) = .OL_EQUIVALENT) ∧
    ((OverloadedSet.call ⟨0, [wFun [1] 10, wFun [2] 20]⟩ wFrontend wTableConst []
        [7]).outcome = .error .OverloadingAmbiguity ∧
      (OverloadedSet.call ⟨0, [wFun [2] 20, wFun [1] 10]⟩ wFrontend wTableConst []
        [7]).outcome = .error .OverloadingAmbiguity) :=
  ⟨by decide, rfl, rfl, rfl, rfl, rfl, rfl, rfl, rfl,
    call_equivalent_tie_ambiguous 0 (wFun [1] 10) (wFun [2] 20) wFrontend wTableConst
      [7] [wRoute 1] [wRoute 1] (by decide) rfl rfl rfl rfl rfl rfl rfl rfl rfl⟩

/-- Witness for C8: on one argument, signature `[1]` (weight 1) strictly
dominates signature `[2]` (weight 2); both registration orders pick the
dominating candidate. -/
theorem call_strict_domination_wins_witness :
    (([7] : List Value).length ≤ ARGUMENT_ARRAY_LIMIT) ∧
    ((wFun [1] 11).signature.length = ([7] : List Value).length) ∧
    ((wFun [2] 22).signature.length = ([7] : List Value).length) ∧
    (wTable.bestSequenceRoute (([7] : List Value).map wFrontend.detectType)
      (([7] : List Value).map wFrontend.detectInsight) (wFun [1] 11).signature =
      some [wRoute 1]) ∧
    (wTable.bestSequenceRoute (([7] : List Value).map wFrontend.detectType)
      (([7] : List Value).map wFrontend.detectInsight) (wFun [2] 22).signature =
      some [wRoute 2]) ∧
    ([wRoute 1].length = ([7] : List Value).length) ∧
    ([wRoute 2].length = ([7] : List Value).length) ∧
    (conversionPossible (rememberWeights [wRoute 1]
      (([7] : List Value).map wFrontend.detectInsight)) = true) ∧
    (conversionPossible (rememberWeights [wRoute 2]
      (([7] : List Value).map wFrontend.detectInsight)) = true) ∧
    (∃ p ∈ (rememberWeights [wRoute 1]
          (([7] : List Value).map wFrontend.detectInsight)).zip
        (rememberWeights [wRoute 2] (([7] : List Value).map wFrontend.detectInsight)),
      Weight.lt p.1 p.2 = true) ∧
    (∀ p ∈ (rememberWeights [wRoute 1]
          (([7] : List Value).map wFrontend.detectInsight)).zip
        (rememberWeights [wRoute 2] (([7] : List Value).map wFrontend.detectInsight)),
      Weight.lt p.2 p.1 = false) ∧
    ((OverloadedSet.call ⟨0, [wFun [1] 11, wFun [2] 22]⟩ wFrontend wTable []
        [7]).chosen = some 0 ∧
      (OverloadedSet.call ⟨0, [wFun [2] 22, wFun [1] 11]⟩ wFrontend wTable []
        [7]).chosen = some 1 ∧
      (OverloadedSet.call ⟨0, [wFun [1] 11, wFun [2] 22]⟩ wFrontend wTable []
        [7]).outcome ≠ .error .OverloadingAmbiguity ∧
      (OverloadedSet.call ⟨0, [wFun [2] 22, wFun [1] 11]⟩ wFrontend wTable []
        [7]).outcome ≠ .error .OverloadingAmbiguity) :=
  ⟨by decide, rfl, rfl, rfl, rfl, rfl, rfl, rfl, rfl, by decide, by decide,
    call_strict_domination_wins 0 (wFun [1] 11) (wFun [2] 22) wFrontend wTable
      [7] [wRoute 1] [wRoute 2] (by decide) rfl rfl rfl rfl rfl rfl rfl rfl
      (by decide) (by decide)⟩

/-- **C9.** On a zero-argument call over a set with two or more
arity-zero candidates, every arity-zero candidate compares `OL_BETTER`
against the running champion (the zero-arity rule is unconditional), so
the tournament's champion is the last-registered arity-zero candidate
(`lastNullary`) and `OverloadingAmbiguity` is never raised. -/
theorem call_zero_arity_last_wins (S : OverloadedSet) (frontend : Frontend)
    (table : ConversionTable)
    (hbsr : table.bestSequenceRoute [] [] [] = some [])
    (hcount : 2 ≤ (S.m_alternatives.filter fun c => c.signature.length == 0).length) :
    (∀ (suggested : List ConversionRoute) (insights : List Insight),
      compareAlternatives [] suggested insights = .OL_BETTER) ∧
    (OverloadedSet.call S frontend table [] []).chosen =
      (lastNullary S.m_alternatives 0).map (fun p => p.1) ∧
    (OverloadedSet.call S frontend table [] []).outcome ≠
      .error .OverloadingAmbiguity := by
  obtain ⟨hlw, hal, hli, hca⟩ :=
    tournLoop_zero_arity table hbsr S.m_alternatives 0 (initState 0) rfl rfl
  have hsome : (lastNullary S.m_alternatives 0).isSome = true :=
    lastNullary_isSome S.m_alternatives 0 (by omega)
  rcases hln : lastNullary S.m_alternatives 0 with _ | p
  · rw [hln] at hsome
    simp at hsome
  · rw [hln] at hli hca
    dsimp only at hli hca
    have hsucc := call_fresh_success S frontend table [] (by decide)
      (tournLoop table [] [] 0 S.m_alternatives 0 (initState 0)) (by rfl)
      (by rw [hlw]; rfl) p.2 hli hal
    refine ⟨fun suggested insights => rfl, ?_, hsucc.2.1⟩
    rw [hsucc.1, hca]
    rfl

/-- Witness for C9: two nullary candidates; the later-registered one
(index 1) is chosen and no ambiguity is raised. -/
theorem call_zero_arity_last_wins_witness :
    (wTable.bestSequenceRoute [] [] [] = some []) ∧
    (2 ≤ (([wFun [] 1, wFun [] 2] : List CFunction).filter
      fun c => c.signature.length == 0).length) ∧
    ((∀ (suggested : List ConversionRoute) (insights : List Insight),
        compareAlternatives [] suggested insights = .OL_BETTER) ∧
      (OverloadedSet.call ⟨0, [wFun [] 1, wFun [] 2]⟩ wFrontend wTable [] []).chosen =
        (lastNullary ([wFun [] 1, wFun [] 2] : List CFunction) 0).map (fun p => p.1) ∧
      (OverloadedSet.call ⟨0, [wFun [] 1, wFun [] 2]⟩ wFrontend wTable [] []).outcome ≠
        .error .OverloadingAmbiguity) :=
  ⟨rfl, by decide,
    call_zero_arity_last_wins ⟨0, [wFun [] 1, wFun [] 2]⟩ wFrontend wTable rfl
      (by decide)⟩

/-- **C10.** Under the precondition that every route returned by a
successful `bestSequenceRoute` has a possible (finite) total weight for
the supplied insight — and one route per formal position — whenever the
tournament's comparison yields `OL_EQUIVALENT` or `OL_AMBIGUOUS` a
champion has already been adopted by a prior `OL_BETTER` verdict, so
the champion handle dereferenced by `identicalAlternatives` is never
null: the call never performs the null dereference. -/
theorem call_no_null_champion_deref (S : OverloadedSet) (frontend : Frontend)
    (table : ConversionTable) (cache : Cache) (args : List Value)
    (hposs : ∀ sig r, table.bestSequenceRoute (args.map frontend.detectType)
        (args.map frontend.detectInsight) sig = some r →
      ∀ p ∈ r.zip (args.map frontend.detectInsight),
        (p.1.totalWeight p.2).isPossible = true)
    (hlen : ∀ sig r, table.bestSequenceRoute (args.map frontend.detectType)
        (args.map frontend.detectInsight) sig = some r → r.length = sig.length) :
    (S.call frontend table cache args).nullDeref = false := by
  have hfree := tournLoop_nullDeref_free table (args.map frontend.detectType)
    (args.map frontend.detectInsight) args.length (List.length_map _ _) hposs hlen
    S.m_alternatives 0 (initState args.length) rfl (fun _ => rfl)
  unfold OverloadedSet.call finishCall
  dsimp only
  repeat' split
  all_goals first | rfl | exact hfree

/-- Witness for C10: the tied candidates of signatures `[1]` and `[2]`
under the constant-weight table.  This tournament really reaches the
`OL_EQUIVALENT` branch (it ends in `OverloadingAmbiguity`, see the C5
witness on the same configuration), so the champion handle is actually
consulted there — with a champion already adopted — and no null
dereference occurs.  The contract hypotheses are discharged
non-vacuously: the table does return routes for both signatures. -/
theorem call_no_null_champion_deref_witness :
    (∀ sig r, wTableConst.bestSequenceRoute
        (([7] : List Value).map wFrontend.detectType)
        (([7] : List Value).map wFrontend.detectInsight) sig = some r →
      ∀ p ∈ r.zip (([7] : List Value).map wFrontend.detectInsight),
        (p.1.totalWeight p.2).isPossible = true) ∧
    (∀ sig r, wTableConst.bestSequenceRoute
        (([7] : List Value).map wFrontend.detectType)
        (([7] : List Value).map wFrontend.detectInsight) sig = some r →
      r.length = sig.length) ∧
    (OverloadedSet.call ⟨0, [wFun [1] 10, wFun [2] 20]⟩ wFrontend wTableConst []
      [7]).nullDeref = false := by
  have hposs : ∀ sig r, wTableConst.bestSequenceRoute
      (([7] : List Value).map wFrontend.detectType)
      (([7] : List Value).map wFrontend.detectInsight) sig = some r →
      ∀ p ∈ r.zip (([7] : List Value).map wFrontend.detectInsight),
        (p.1.totalWeight p.2).isPossible = true := by
    intro sig r h
    dsimp only [wTableConst] at h
    split at h
    · injection h with h
      subst h
      intro p hp
      obtain ⟨a, _, ha⟩ := List.mem_map.mp (List.of_mem_zip hp).1
      rw [← ha]
      rfl
    · exact Option.noConfusion h
  have hlen : ∀ sig r, wTableConst.bestSequenceRoute
      (([7] : List Value).map wFrontend.detectType)
      (([7] : List Value).map wFrontend.detectInsight) sig = some r →
      r.length = sig.length := by
    intro sig r h
    dsimp only [wTableConst] at h
    split at h
    · injection h with h
      subst h
      exact List.length_map _ _
    · exact Option.noConfusion h
  exact ⟨hposs, hlen,
    call_no_null_champion_deref ⟨0, [wFun [1] 10, wFun [2] 20]⟩ wFrontend
      wTableConst [] [7] hposs hlen⟩

/-- **C6.** When a call succeeds, an immediately repeated call with the
same arguments (hence the same detected types and insights) is a cache
hit that chooses the same candidate: it recalls the stored index
instead of running the tournament, recomputes routes for that single
candidate only (`routeComputations = 1`), converts the arguments, and
invokes it — producing the same outcome. -/
theorem call_idempotent_cache_hit (S : OverloadedSet) (frontend : Frontend)
    (table : ConversionTable) (cache : Cache) (args : List Value)
    (hok : ∃ v, (S.call frontend table cache args).outcome = Except.ok v) :
    (S.call frontend table (S.call frontend table cache args).cacheAfter
      args).cacheHit = true ∧
    (S.call frontend table (S.call frontend table cache args).cacheAfter args).chosen =
      (S.call frontend table cache args).chosen ∧
    (S.call frontend table (S.call frontend table cache args).cacheAfter
      args).tournamentRan = false ∧
    (S.call frontend table (S.call frontend table cache args).cacheAfter
      args).routeComputations = 1 ∧
    (S.call frontend table (S.call frontend table cache args).cacheAfter
      args).outcome = (S.call frontend table cache args).outcome := by
  obtain ⟨v, hv⟩ := hok
  by_cases hari : args.length > ARGUMENT_ARRAY_LIMIT
  · exfalso
    unfold OverloadedSet.call at hv
    rw [if_pos hari] at hv
    exact Except.noConfusion hv
  rcases hrec : Cache.recall cache
      ⟨S.id, args.map frontend.detectType, args.map frontend.detectInsight⟩
      with _ | i
  · -- the first call missed the cache; it must have ended in the
    -- success verdict, which stored the champion's index
    by_cases hposs : conversionPossible (tournLoop table
        (args.map frontend.detectType) (args.map frontend.detectInsight)
        args.length S.m_alternatives 0 (initState args.length)).lightweight = true
    case neg =>
      exfalso
      have hposs' := Bool.eq_false_iff.mpr hposs
      unfold OverloadedSet.call at hv
      rw [if_neg hari] at hv
      dsimp only at hv
      rw [hrec] at hv
      dsimp only at hv
      rw [if_pos (by simp [hposs'])] at hv
      exact Except.noConfusion hv
    case pos =>
      rcases hm0 : (tournLoop table (args.map frontend.detectType)
          (args.map frontend.detectInsight) args.length S.m_alternatives 0
          (initState args.length)).lightest with _ | m
      · exfalso
        unfold OverloadedSet.call at hv
        rw [if_neg hari] at hv
        dsimp only at hv
        rw [hrec] at hv
        dsimp only at hv
        rw [if_pos (by simp [hm0])] at hv
        exact Except.noConfusion hv
      · by_cases halert : (tournLoop table (args.map frontend.detectType)
            (args.map frontend.detectInsight) args.length S.m_alternatives 0
            (initState args.length)).ambiguity_alert = true
        case pos =>
          exfalso
          unfold OverloadedSet.call at hv
          rw [if_neg hari] at hv
          dsimp only at hv
          rw [hrec] at hv
          dsimp only at hv
          rw [if_neg (by simp [hposs, hm0])] at hv
          rw [if_pos halert] at hv
          exact Except.noConfusion hv
        case neg =>
          have halert' := Bool.eq_false_iff.mpr halert
          have hr1 := call_miss_success_eval S frontend table cache args hari hrec
            _ rfl hposs m hm0 halert'
          have hsound := tournLoop_champion_sound table
            (args.map frontend.detectType) (args.map frontend.detectInsight)
            args.length S.m_alternatives S.m_alternatives 0 (initState args.length)
            (fun k => by simp) (Or.inl rfl)
          rcases hsound with h | ⟨c, hc1, hc2, hc3⟩
          · rw [hm0] at h
            exact Option.noConfusion h
          · rw [hm0] at hc1
            injection hc1 with hc1
            subst hc1
            have hr2 := call_hit_eval S frontend table
              (Cache.remember cache
                ⟨S.id, args.map frontend.detectType, args.map frontend.detectInsight⟩
                (tournLoop table (args.map frontend.detectType)
                  (args.map frontend.detectInsight) args.length S.m_alternatives 0
                  (initState args.length)).cached_alt)
              args
              (tournLoop table (args.map frontend.detectType)
                (args.map frontend.detectInsight) args.length S.m_alternatives 0
                (initState args.length)).cached_alt
              m
              (tournLoop table (args.map frontend.detectType)
                (args.map frontend.detectInsight) args.length S.m_alternatives 0
                (initState args.length)).lightroutes
              hari (Cache.recall_remember_self _ _ _) hc2 hc3
            rw [hr1, finishCall_cacheAfter, hr2]
            refine ⟨by apply finishCall_cacheHit, ?_, by apply finishCall_tournamentRan,
              by apply finishCall_routeComputations, by apply finishCall_outcome_eq⟩
            rw [finishCall_chosen, finishCall_chosen]
  · -- the first call itself hit the cache: the second call repeats it
    rcases hget : S.m_alternatives.get? i with _ | m
    · exfalso
      unfold OverloadedSet.call at hv
      rw [if_neg hari] at hv
      dsimp only at hv
      rw [hrec] at hv
      dsimp only at hv
      rw [hget] at hv
      exact Except.noConfusion hv
    · rcases hbsr : table.bestSequenceRoute (args.map frontend.detectType)
          (args.map frontend.detectInsight) m.signature with _ | needed
      · exfalso
        unfold OverloadedSet.call at hv
        rw [if_neg hari] at hv
        dsimp only at hv
        rw [hrec] at hv
        dsimp only at hv
        rw [hget] at hv
        dsimp only at hv
        rw [hbsr] at hv
        exact Except.noConfusion hv
      · have hr1 := call_hit_eval S frontend table cache args i m needed hari hrec
          hget hbsr
        rw [hr1, finishCall_cacheAfter, hr1]
        exact ⟨by apply finishCall_cacheHit, rfl, by apply finishCall_tournamentRan,
          by apply finishCall_routeComputations, rfl⟩

/-- Witness for C6: a single-candidate set; the first call resolves and
stores, the second call hits the cache, picks the same candidate with
one route computation, and returns the same outcome. -/
theorem call_idempotent_cache_hit_witness :
    (∃ v, (OverloadedSet.call ⟨0, [wFun [1] 9]⟩ wFrontend wTable [] [7]).outcome =
      Except.ok v) ∧
    ((OverloadedSet.call ⟨0, [wFun [1] 9]⟩ wFrontend wTable
        (OverloadedSet.call ⟨0, [wFun [1] 9]⟩ wFrontend wTable [] [7]).cacheAfter
        [7]).cacheHit = true ∧
      (OverloadedSet.call ⟨0, [wFun [1] 9]⟩ wFrontend wTable
        (OverloadedSet.call ⟨0, [wFun [1] 9]⟩ wFrontend wTable [] [7]).cacheAfter
        [7]).chosen =
        (OverloadedSet.call ⟨0, [wFun [1] 9]⟩ wFrontend wTable [] [7]).chosen ∧
      (OverloadedSet.call ⟨0, [wFun [1] 9]⟩ wFrontend wTable
        (OverloadedSet.call ⟨0, [wFun [1] 9]⟩ wFrontend wTable [] [7]).cacheAfter
        [7]).tournamentRan = false ∧
      (OverloadedSet.call ⟨0, [wFun [1] 9]⟩ wFrontend wTable
        (OverloadedSet.call ⟨0, [wFun [1] 9]⟩ wFrontend wTable [] [7]).cacheAfter
        [7]).routeComputations = 1 ∧
      (OverloadedSet.call ⟨0, [wFun [1] 9]⟩ wFrontend wTable
        (OverloadedSet.call ⟨0, [wFun [1] 9]⟩ wFrontend wTable [] [7]).cacheAfter
        [7]).outcome =
        (OverloadedSet.call ⟨0, [wFun [1] 9]⟩ wFrontend wTable [] [7]).outcome) :=
  ⟨⟨9, rfl⟩,
    call_idempotent_cache_hit ⟨0, [wFun [1] 9]⟩ wFrontend wTable [] [7] ⟨9, rfl⟩⟩

end Robin
